import Mathlib

/-!
# Verification of the migrator-studio codegen round trip

A shallow embedding of the script-to-notebook compiler of
`migrator_studio/codegen` (`parser.py`, `notebook.py`, `sync.py`) and proofs
about it.  Python strings are modelled as `List Char`; the regular
expressions of the source, which are all word-literal or line-oriented, are
modelled by explicit character scanners with the same semantics.  Every
definition is structurally recursive (fuel is used where the Python loop
skips ahead), so all of them evaluate by kernel reduction on concrete
inputs.
-/

namespace MigratorStudio

/-- Python strings, as character lists. -/
abbrev Chars := List Char

/-- Word characters for the `\b` boundary of Python's `re`: letters, digits
and underscore (the scripts contain only ASCII identifiers). -/
def isWordChar (c : Char) : Bool := c.isAlphanum || c == '_'

/-- Whitespace as matched by Python's `\s` and stripped by `str.strip`
(ASCII subset: the sources contain no exotic whitespace). -/
def isPyWs (c : Char) : Bool :=
  c == ' ' || c == '\t' || c == '\n' || c == '\r' || c == '\x0b' || c == '\x0c'

/-- Whitespace inside a single line (no newline), as used when matching
`\s` inside patterns applied line by line. -/
def isLineWs (c : Char) : Bool := c == ' ' || c == '\t'

/-- Python `str.lstrip()`. -/
def lstripC (s : Chars) : Chars := s.dropWhile isPyWs

/-- Python `str.rstrip()`. -/
def rstripC (s : Chars) : Chars := (s.reverse.dropWhile isPyWs).reverse

/-- Python `str.strip()`. -/
def stripC (s : Chars) : Chars := rstripC (lstripC s)

/-- Python `str.splitlines()` restricted to `\n` separators: split at every
newline, without a trailing empty piece when the string ends in `\n`. -/
def splitLinesGo (cur : Chars) : Chars → List Chars
  | [] => [cur.reverse]
  | c :: cs => if c == '\n' then cur.reverse :: splitLinesGo [] cs else splitLinesGo (c :: cur) cs

/-- Python `str.splitlines()` (newline separators only); the empty string
yields no lines, matching Python. -/
def splitLines (s : Chars) : List Chars :=
  if s.isEmpty then [] else
    let ls := splitLinesGo [] s
    if s.getLast? == some '\n' then ls.dropLast else ls

/-- Python `"\n".join(lines)`. -/
def joinLines : List Chars → Chars
  | [] => []
  | [l] => l
  | l :: ls => l ++ '\n' :: joinLines ls

/-- Python `line.count(c)`. -/
def countC (c : Char) (s : Chars) : Nat := (s.filter (fun d => d == c)).length

/-- The running bracket-depth contribution of one line:
`line.count('(') - line.count(')')` from `generate_notebook`. -/
def parenBal (s : Chars) : Int := (countC '(' s : Int) - (countC ')' s : Int)

/-! ## Word-boundary substitution

`notebook.py` and `sync.py` rewrite variables with `re.sub(r'\b<word>\b',
repl, s)` where `<word>` is a literal identifier (`df`, `df_3`, an exported
name).  The scanner below walks the string left to right; at each position
it matches the word if the previous character is not a word character and
the character following the match is not a word character, exactly the `\b`
semantics for a word-literal pattern.  Matches are non-overlapping and the
scan resumes after the matched text, as `re.sub` does.  Fuel bounds the
recursion; the wrapper supplies `s.length`, which is always sufficient, and
an exhausted-fuel fallback returns the rest unchanged. -/

/-- True when the next character (if any) is not a word character, i.e. a
`\b` boundary follows. -/
def noWordAfter : Chars → Bool
  | [] => true
  | c :: _ => !isWordChar c

/-- One scan step of `re.sub(r'\b<word>\b', repl, s)`; `w0 :: wr` is the
word, `lastW` records whether its final character is a word character (it
always is, for identifiers), `prevW` whether the previously scanned
character was one. -/
def subWordGo (w0 : Char) (wr repl : Chars) (lastW : Bool) : Nat → Bool → Chars → Chars
  | 0, _, s => s
  | _ + 1, _, [] => []
  | f + 1, prevW, c :: cs =>
    if !prevW && c == w0 && wr.isPrefixOf cs && noWordAfter (cs.drop wr.length) then
      repl ++ subWordGo w0 wr repl lastW f lastW (cs.drop wr.length)
    else
      c :: subWordGo w0 wr repl lastW f (isWordChar c) cs

/-- Python `re.sub(r'\b<w>\b', repl, s)` for a word-literal `w`. -/
def subWordC (w repl s : Chars) : Chars :=
  match w with
  | [] => s
  | w0 :: wr => subWordGo w0 wr repl (isWordChar ((w0 :: wr).getLastD w0)) s.length false s

/-- One scan step of `re.search(r'\b<word>\b', s)`, same match condition as
`subWordGo`. -/
def containsWordGo (w0 : Char) (wr : Chars) : Bool → Chars → Bool
  | _, [] => false
  | prevW, c :: cs =>
    if !prevW && c == w0 && wr.isPrefixOf cs && noWordAfter (cs.drop wr.length) then
      true
    else
      containsWordGo w0 wr (isWordChar c) cs

/-- Python `re.search(r'\b<w>\b', s) is not None` for a word-literal `w`. -/
def containsWordC (w s : Chars) : Bool :=
  match w with
  | [] => true
  | w0 :: wr => containsWordGo w0 wr false s

/-- Counting distributes over append. -/
theorem countC_append (x : Char) (a b : Chars) :
    countC x (a ++ b) = countC x a + countC x b := by
  simp [countC, List.filter_append]

/-- Counting a cons. -/
theorem countC_cons (x c : Char) (s : Chars) :
    countC x (c :: s) = (if c == x then 1 else 0) + countC x s := by
  simp only [countC, List.filter_cons]
  by_cases h : (c == x) = true
  · simp [h, Nat.add_comm]
  · simp [h]

/-- A character that does not occur has count zero. -/
theorem countC_eq_zero_of_not_mem {x : Char} {s : Chars} (h : x ∉ s) :
    countC x s = 0 := by
  simp only [countC, List.length_eq_zero, List.filter_eq_nil_iff]
  intro a ha hax
  exact h ((beq_iff_eq.mp hax) ▸ ha)

/-- A string without an occurrence of the word is returned unchanged by the
substitution (whatever the fuel, thanks to the identity fallback). -/
theorem subWordGo_of_not_contains (w0 : Char) (wr repl : Chars) (lastW : Bool) :
    ∀ (f : Nat) (prevW : Bool) (s : Chars),
      containsWordGo w0 wr prevW s = false →
      subWordGo w0 wr repl lastW f prevW s = s := by
  intro f
  induction f with
  | zero => intro prevW s _; rfl
  | succ f ih =>
    intro prevW s h
    cases s with
    | nil => rfl
    | cons c cs =>
      simp only [containsWordGo] at h
      rw [subWordGo]
      by_cases hc :
          (!prevW && c == w0 && wr.isPrefixOf cs && noWordAfter (cs.drop wr.length)) = true
      · rw [if_pos hc] at h; exact absurd h (by simp)
      · rw [if_neg hc] at h
        rw [if_neg hc, ih (isWordChar c) cs h]

/-- `subWordC` is the identity when the word does not occur. -/
theorem subWordC_of_not_contains (w repl s : Chars)
    (h : containsWordC w s = false) : subWordC w repl s = s := by
  cases w with
  | nil => rfl
  | cons w0 wr =>
    exact subWordGo_of_not_contains w0 wr repl _ s.length false s h

/-- Characters that occur neither in the word nor in the replacement are
counted identically before and after substitution (used for the bracket
counters of the multi-assignment walk). -/
theorem countC_subWordGo (x w0 : Char) (wr repl : Chars) (lastW : Bool)
    (hx0 : x ≠ w0) (hxw : x ∉ wr) (hxr : x ∉ repl) :
    ∀ (f : Nat) (prevW : Bool) (s : Chars),
      countC x (subWordGo w0 wr repl lastW f prevW s) = countC x s := by
  intro f
  induction f with
  | zero => intro prevW s; rfl
  | succ f ih =>
    intro prevW s
    cases s with
    | nil => rfl
    | cons c cs =>
      rw [subWordGo]
      by_cases hc :
          (!prevW && c == w0 && wr.isPrefixOf cs && noWordAfter (cs.drop wr.length)) = true
      · rw [if_pos hc]
        have hcw : c = w0 := by
          simp only [Bool.and_eq_true, beq_iff_eq] at hc
          exact hc.1.1.2
        have hpre : wr <+: cs := by
          simp only [Bool.and_eq_true] at hc
          exact List.isPrefixOf_iff_prefix.mp hc.1.2
        obtain ⟨t, ht⟩ := hpre
        have hdrop : cs.drop wr.length = t := by
          rw [← ht, List.drop_left]
        rw [countC_append, hdrop, ih,
          countC_eq_zero_of_not_mem hxr, countC_cons, ← ht, countC_append,
          countC_eq_zero_of_not_mem hxw]
        have : (w0 == x) = false := by
          simp only [beq_eq_false_iff_ne, ne_eq]
          exact fun hx => hx0 hx.symm
        rw [hcw, this]
        simp
      · rw [if_neg hc, countC_cons, countC_cons, ih]

/-- `subWordC` preserves the count of characters foreign to word and
replacement; in particular bracket balances are preserved when the
replacement is a plain identifier. -/
theorem countC_subWordC (x : Char) (w repl s : Chars)
    (hxw : x ∉ w) (hxr : x ∉ repl) :
    countC x (subWordC w repl s) = countC x s := by
  cases w with
  | nil => rfl
  | cons w0 wr =>
    have hx0 : x ≠ w0 := fun h => hxw (h ▸ List.mem_cons_self w0 wr)
    have hxw' : x ∉ wr := fun h => hxw (List.mem_cons_of_mem w0 h)
    exact countC_subWordGo x w0 wr repl _ hx0 hxw' hxr s.length false s

/-! ## Stage variable names

`generate_notebook` names the output of step `N` with the f-string
`f"df_{step_num}"`, i.e. `df_` followed by the decimal digits of `N`.
`natDec` is that decimal formatting, written with fuel so that it reduces
in the kernel; `natDigits` is its proof-side specification. -/

/-- The character for a decimal digit. -/
def digitCh (d : Nat) : Char := Char.ofNat (48 + d)

/-- Decimal formatting with fuel, accumulating least-significant digits
into `acc` (the usual div-mod loop of decimal printing). -/
def natDecGo : Nat → Nat → Chars → Chars
  | 0, _, acc => acc
  | f + 1, n, acc =>
    let acc1 := digitCh (n % 10) :: acc
    if n / 10 == 0 then acc1 else natDecGo f (n / 10) acc1

/-- The decimal digit string of `n`, most significant first. -/
def natDec (n : Nat) : Chars := natDecGo (n + 1) n []

/-- The output variable name of step number `i`, Python `f"df_{i}"`. -/
def stageName (i : Nat) : Chars := 'd' :: 'f' :: '_' :: natDec i

/-- Proof-side digit list of `n`, most significant first. -/
def natDigits (n : Nat) : List Nat :=
  if _ : n < 10 then [n] else natDigits (n / 10) ++ [n % 10]
termination_by n
decreasing_by exact Nat.div_lt_self (by omega) (by omega)

theorem natDecGo_eq (f : Nat) : ∀ (n : Nat) (acc : Chars), n < f →
    natDecGo f n acc = (natDigits n).map digitCh ++ acc := by
  induction f with
  | zero => intro n acc h; omega
  | succ f ih =>
    intro n acc h
    rw [natDecGo]
    by_cases h10 : n < 10
    · have hz : (n / 10 == 0) = true := by
        simp only [beq_iff_eq]
        omega
      rw [if_pos hz, natDigits, dif_pos h10, Nat.mod_eq_of_lt h10]
      simp
    · have hz : (n / 10 == 0) = false := by
        simp only [beq_eq_false_iff_ne, ne_eq]
        omega
      rw [if_neg (by simp [hz]), natDigits, dif_neg h10]
      have hlt : n / 10 < f := by
        have := Nat.div_lt_self (n := n) (by omega) (by omega : 1 < 10)
        omega
      rw [ih (n / 10) _ hlt]
      simp

/-- Evaluating the digit list recovers the number. -/
theorem natDigits_val (n : Nat) :
    (natDigits n).foldl (fun a d => a * 10 + d) 0 = n := by
  induction n using Nat.strong_induction_on with
  | _ n ih =>
    by_cases h10 : n < 10
    · rw [natDigits, dif_pos h10]
      simp
    · rw [natDigits, dif_neg h10]
      rw [List.foldl_append]
      rw [ih (n / 10) (Nat.div_lt_self (by omega) (by omega))]
      simp only [List.foldl_cons, List.foldl_nil]
      omega

/-- All entries of the digit list are digits. -/
theorem natDigits_lt (n : Nat) : ∀ d ∈ natDigits n, d < 10 := by
  induction n using Nat.strong_induction_on with
  | _ n ih =>
    by_cases h10 : n < 10
    · rw [natDigits, dif_pos h10]
      intro d hd
      simp only [List.mem_singleton] at hd
      omega
    · rw [natDigits, dif_neg h10]
      intro d hd
      rcases List.mem_append.mp hd with h | h
      · exact ih (n / 10) (Nat.div_lt_self (by omega) (by omega)) d h
      · simp only [List.mem_singleton] at h
        omega

/-- The digit character map is injective on digits. -/
theorem digitCh_inj : ∀ a, a < 10 → ∀ b, b < 10 → digitCh a = digitCh b → a = b := by
  decide

/-- Mapping `digitCh` over digit lists is injective. -/
theorem map_digitCh_inj : ∀ (l₁ l₂ : List Nat), (∀ d ∈ l₁, d < 10) → (∀ d ∈ l₂, d < 10) →
    l₁.map digitCh = l₂.map digitCh → l₁ = l₂ := by
  intro l₁
  induction l₁ with
  | nil =>
    intro l₂ _ _ h
    cases l₂ with
    | nil => rfl
    | cons b bs => simp at h
  | cons a as ih =>
    intro l₂ h₁ h₂ h
    cases l₂ with
    | nil => simp at h
    | cons b bs =>
      simp only [List.map_cons, List.cons.injEq] at h
      have ha : a = b :=
        digitCh_inj a (h₁ a (List.mem_cons_self a as)) b (h₂ b (List.mem_cons_self b bs)) h.1
      have hs : as = bs := by
        refine ih bs (fun d hd => h₁ d (List.mem_cons_of_mem a hd))
          (fun d hd => h₂ d (List.mem_cons_of_mem b hd)) h.2
      rw [ha, hs]

/-- Decimal formatting is injective. -/
theorem natDec_inj {a b : Nat} (h : natDec a = natDec b) : a = b := by
  unfold natDec at h
  rw [natDecGo_eq (a + 1) a [] (by omega), natDecGo_eq (b + 1) b [] (by omega)] at h
  simp only [List.append_nil] at h
  have := map_digitCh_inj (natDigits a) (natDigits b) (natDigits_lt a) (natDigits_lt b) h
  have hv := natDigits_val a
  rw [this, natDigits_val b] at hv
  omega

/-- Stage names of distinct step numbers are distinct strings. -/
theorem stageName_inj {a b : Nat} (h : stageName a = stageName b) : a = b := by
  simp only [stageName, List.cons.injEq, true_and] at h
  exact natDec_inj h

/-! ## The per-step rewrite of `generate_notebook`

Lines 193-250 of `codegen/notebook.py`.  The assignment pattern is
`^(\s*)df(\s*=)` with `re.MULTILINE`; it is matched line by line here (the
sources never contain the degenerate cross-newline `\s*` runs for which
the readings differ, since those are not valid Python statements). -/

/-- The word `df`, the fixed working-variable name of the compiler. -/
def dfW : Chars := ['d', 'f']

/-- Substitute `re.sub(r'\bdf\b', repl, s)`. -/
def subDf (repl s : Chars) : Chars := subWordC dfW repl s

/-- Match `^(\s*)df(\s*=)` against one line, returning the indent, the
whitespace between `df` and `=`, and the rest after the `=`. -/
def matchAssign (l : Chars) : Option (Chars × Chars × Chars) :=
  let ind := l.takeWhile isLineWs
  match l.dropWhile isLineWs with
  | 'd' :: 'f' :: r =>
    match r.dropWhile isLineWs with
    | '=' :: rest => some (ind, r.takeWhile isLineWs, rest)
    | _ => none
  | _ => none

/-- `len(re.findall(assignment_pattern, step_code, re.MULTILINE))`:
the number of lines of the step that open a `df` assignment. -/
def countAssign (code : Chars) : Nat :=
  ((splitLines code).filter (fun l => (matchAssign l).isSome)).length

/-- Replace the target of the textually first `df` assignment with `outV`:
`re.sub(assignment_pattern, outV-replacement, step_code, count=1,
flags=re.MULTILINE)`.  The scan walks the raw string so that everything
outside the replaced group is preserved byte for byte. -/
def replaceFirstAssignGo (outV : Chars) : Bool → Chars → Chars
  | _, [] => []
  | atStart, c :: cs =>
    if atStart then
      match matchAssign (c :: cs) with
      | some (ind, ws2, rest) => ind ++ outV ++ ws2 ++ '=' :: rest
      | none => c :: replaceFirstAssignGo outV (c == '\n') cs
    else
      c :: replaceFirstAssignGo outV (c == '\n') cs

/-- Replace the first assignment target in a step-code string.  Note that
`matchAssign` never scans past a newline (its whitespace class excludes
`\n`), so trying it at each line start is exactly the multiline regex. -/
def replaceFirstAssign (outV : Chars) (code : Chars) : Chars :=
  replaceFirstAssignGo outV true code

/-- The multi-assignment walk of `notebook.py` lines 211-250, written as a
line-at-a-time state machine.  `cur` is the Python local `current_input`;
a `some p` state means the walk is inside the `while paren_count > 0`
continuation loop with depth `p` (continuation lines are substituted with
the `current_input` in force when their assignment line was opened, and
`current_input` becomes the step output only once the brackets balance,
exactly as in the source, where the assignment `current_input =
current_df_var` follows the inner while loop). -/
def multiWalkGo (outV : Chars) : Chars → Option Int → List Chars → List Chars
  | _, _, [] => []
  | cur, some p, l :: ls =>
    let l1 := subDf cur l
    let p1 := p + parenBal l1
    if p1 > 0 then l1 :: multiWalkGo outV cur (some p1) ls
    else l1 :: multiWalkGo outV outV none ls
  | cur, none, l :: ls =>
    match matchAssign l with
    | some (ind, ws2, rest) =>
      let l1 := ind ++ outV ++ ws2 ++ '=' :: subDf cur rest
      let p := parenBal l1
      if p > 0 then l1 :: multiWalkGo outV cur (some p) ls
      else l1 :: multiWalkGo outV outV none ls
    | none => subDf cur l :: multiWalkGo outV cur none ls

/-- The complete per-step rewrite (`notebook.py` lines 196-250): count the
`df` assignments; with none, substitute every `df` occurrence with the
input name; with exactly one, retarget it to the output name and then
substitute the remaining `df` occurrences with the input name; with more,
run the chained-assignment walk. -/
def rewriteStep (inV outV : Chars) (code : Chars) : Chars :=
  let n := countAssign code
  if n == 0 then subDf inV code
  else if n == 1 then subDf inV (replaceFirstAssign outV code)
  else joinLines (multiWalkGo outV inV none (splitLines code))

/-! ## The parsed transformer and the generated cells

`codegen/parser.py` produces a `TransformerAST`; `codegen/notebook.py`
turns its steps into notebook cells.  Only the step cells carry structure
the claims speak about; the imports, source-load and result cells are
tracked by kind. -/

/-- A parsed step (`Step` in `codegen/parser.py`; the line number is not
needed by any claim). -/
structure PStep where
  name : Chars
  code : Chars
deriving DecidableEq, Repr

/-- The parsed transformer (`TransformerAST` in `codegen/parser.py`,
minus the file path). -/
structure TransformerAST where
  moduleDocstring : Option Chars
  sources : List Chars
  setupCode : Chars
  steps : List PStep
  returnVar : Chars
deriving DecidableEq, Repr

/-- A generated step cell: the Marimo cell `generate_notebook` emits for
one step.  `inputVar` is the Python local `input_var` used to rewrite the
step, `outputVar` the `current_df_var` it binds, `deps` the sorted
argument list of `def __(...)`, and `codeLines` the rewritten step code. -/
structure StepCell where
  stepNum : Nat
  name : Chars
  inputVar : Chars
  outputVar : Chars
  deps : List Chars
  codeLines : List Chars
deriving DecidableEq, Repr

/-- The body of a step cell as written to the notebook (each line is
4-space indented in the file): the `# Step N: name` header, the rewritten
code, the bare display expression, and the `return out,` line. -/
def stepCellBody (c : StepCell) : List Chars :=
  ('#' :: ' ' :: 'S' :: 't' :: 'e' :: 'p' :: ' ' :: natDec c.stepNum ++ ':' :: ' ' :: c.name)
    :: c.codeLines ++ [c.outputVar, 'r' :: 'e' :: 't' :: 'u' :: 'r' :: 'n' :: ' ' :: c.outputVar ++ [',']]

/-- Lexicographic order on strings by code point, the order `sorted` uses
on `str`. -/
def lexLe : Chars → Chars → Bool
  | [], _ => true
  | _ :: _, [] => false
  | a :: as, b :: bs =>
    if a.toNat < b.toNat then true
    else if b.toNat < a.toNat then false
    else lexLe as bs

/-- Insertion into a sorted list. -/
def insertLe (x : Chars) : List Chars → List Chars
  | [] => [x]
  | y :: ys => if lexLe x y then x :: y :: ys else y :: insertLe x ys

/-- Insertion sort with `lexLe`, modelling Python's `sorted`. -/
def sortLe : List Chars → List Chars
  | [] => []
  | x :: xs => insertLe x (sortLe xs)

theorem mem_insertLe {a x : Chars} : ∀ {l : List Chars}, a ∈ insertLe x l ↔ a = x ∨ a ∈ l := by
  intro l
  induction l with
  | nil => simp [insertLe]
  | cons y ys ih =>
    rw [insertLe]
    by_cases h : lexLe x y = true
    · simp [h]
    · simp only [if_neg h, List.mem_cons, ih]
      tauto

theorem mem_sortLe {a : Chars} : ∀ {l : List Chars}, a ∈ sortLe l ↔ a ∈ l := by
  intro l
  induction l with
  | nil => simp [sortLe]
  | cons x xs ih =>
    rw [sortLe]
    simp [mem_insertLe, ih]

/-- The names the setup/imports cell exports for later cells
(`notebook.py` lines 142-154: `session` plus the listed operation names). -/
def exportedInit : List Chars :=
  (["session",
    "sanitize_data", "filter_isin", "filter_not_null", "filter_null",
    "merge_left", "merge_inner", "merge_outer",
    "map_dict", "map_lookup",
    "copy_column", "set_value", "concat_columns", "rename_columns",
    "drop_columns", "select_columns",
    "str_strip", "str_upper", "str_lower", "str_replace",
    "fill_null", "where", "case", "coalesce",
    "drop_duplicates", "keep_max", "keep_min",
    "to_numeric", "to_int", "to_string", "to_bool",
    "load_source"] : List String).map String.data

/-- Match `^(\w+)\s*=` against one line of setup code
(`notebook.py` line 180), returning the assigned name. -/
def matchSetupVar (l : Chars) : Option Chars :=
  let idt := l.takeWhile isWordChar
  if idt.isEmpty then none
  else
    match (l.drop idt.length).dropWhile isLineWs with
    | '=' :: _ => some idt
    | _ => none

/-- The variables the source-load cell exports: `sources` plus every
assignment target found in the setup code (`notebook.py` lines 177-185);
the cell exists only when the transformer declares sources. -/
def exportedAfterSetup (ast : TransformerAST) : List Chars :=
  if ast.sources.isEmpty then exportedInit
  else
    exportedInit ++ ('s' :: 'o' :: 'u' :: 'r' :: 'c' :: 'e' :: 's' :: [])
      :: (splitLines ast.setupCode).filterMap matchSetupVar

/-- The step-cell loop of `generate_notebook` (lines 187-280): each step
gets the next stage name as output, the previous stage name as input when
one exists and its own output name otherwise, its code rewritten by
`rewriteStep`, and as dependencies the previous stage name plus every
exported name occurring in the rewritten code, sorted and deduplicated. -/
def genStepsAux (exported : List Chars) : Option Chars → Nat → List PStep → List StepCell
  | _, _, [] => []
  | prev, i, st :: rest =>
    let outV := stageName (i + 1)
    let inV := prev.getD outV
    let codeStr := rewriteStep inV outV st.code
    let cands :=
      (match prev with | some p => [p] | none => []) ++
        exported.filter (fun v =>
          (match prev with | some p => v ≠ p | none => true) && containsWordC v codeStr)
    { stepNum := i + 1, name := st.name, inputVar := inV, outputVar := outV,
      deps := sortLe cands.dedup, codeLines := splitLines codeStr }
      :: genStepsAux (exported ++ [outV]) (some outV) (i + 1) rest

/-- The step cells generated for a transformer. -/
def stepCells (ast : TransformerAST) : List StepCell :=
  genStepsAux (exportedAfterSetup ast) none 0 ast.steps

/-- Cell kinds in the generated notebook, in file order. -/
inductive CellKind where
  | imports : CellKind
  | sourceLoad : CellKind
  | stepCell (c : StepCell) : CellKind
  | result : CellKind
deriving DecidableEq, Repr

/-- The cells of the generated notebook, in order: the imports/session
cell, the source-load cell when sources are declared, one cell per step,
and the final result cell (`notebook.py` lines 109-293). -/
def notebookCells (ast : TransformerAST) : List CellKind :=
  CellKind.imports
    :: ((if ast.sources.isEmpty then [] else [CellKind.sourceLoad])
      ++ (stepCells ast).map CellKind.stepCell ++ [CellKind.result])

/-- The warning trace of a compilation.  The step-cell loop of
`generate_notebook` (lines 187-280) contains no warning emission of any
kind — no `warnings.warn`, no write to standard error, no collected
diagnostics; the function's only outputs are the returned notebook text
and the notebook file write.  The trace is therefore constantly empty. -/
def generateWarnings (_ast : TransformerAST) : List Chars := []

/-! ## The transformer parser

The step-splitting loop of `codegen/parser.py` lines 124-172 walks the
statements of the `transform` function body.  Statements are modelled at
the granularity the loop distinguishes: a bare string-constant expression
(candidate docstring), a bare non-string constant expression, a `return`
of a name, a recognized `step("name")` marker call, and everything else
(carrying its source segment). -/

/-- One statement of the `transform` body, as the parser loop sees it. -/
inductive PyStmt where
  | exprConstStr (code : Chars) : PyStmt
  | exprConstOther (code : Chars) : PyStmt
  | ret (v : Chars) : PyStmt
  | stepMarker (name : Chars) : PyStmt
  | other (code : Chars) : PyStmt
deriving DecidableEq, Repr

/-- Whether a statement is a recognized step-marker call
(`_is_step_call` returning a name). -/
def isStepStmt : PyStmt → Bool
  | .stepMarker _ => true
  | _ => false

/-- Close the step being accumulated: its code is the joined, stripped
line block (`"\n".join(current_step_lines).strip()`). -/
def closeStep (nm : Chars) (ls : List Chars) : PStep :=
  { name := nm, code := stripC (joinLines ls) }

/-- The statement loop of `parse_transformer` (lines 130-170): a bare
string constant is skipped only before the first step marker, `return`
statements are always skipped, a marker closes the current step and opens
a new one, and any other statement joins the setup block or the current
step.  Returns the setup segments and the steps, in order. -/
def parseBodyGo : Option (Chars × List Chars) → List PyStmt → List Chars × List PStep
  | cur, [] =>
    ([], match cur with | none => [] | some (nm, ls) => [closeStep nm ls])
  | cur, s :: rest =>
    match s with
    | .exprConstStr code =>
      match cur with
      | none => parseBodyGo none rest
      | some (nm, ls) => parseBodyGo (some (nm, ls ++ [code])) rest
    | .ret _ => parseBodyGo cur rest
    | .stepMarker nm =>
      let res := parseBodyGo (some (nm, [])) rest
      match cur with
      | none => res
      | some (pnm, pls) => (res.1, closeStep pnm pls :: res.2)
    | .exprConstOther code | .other code =>
      match cur with
      | none =>
        let res := parseBodyGo none rest
        (code :: res.1, res.2)
      | some (nm, ls) => parseBodyGo (some (nm, ls ++ [code])) rest

/-- The setup code and steps parsed from a `transform` body
(`parse_transformer` lines 124-172; setup is the joined, stripped block). -/
def parseBody (body : List PyStmt) : Chars × List PStep :=
  let res := parseBodyGo none body
  (stripC (joinLines res.1), res.2)

/-- `_get_return_var`: the name of the last `return <name>` statement,
defaulting to `df`. -/
def getReturnVar (body : List PyStmt) : Chars :=
  (body.reverse.findSome? (fun s => match s with | .ret v => some v | _ => none)).getD dfW

/-- Assemble the `TransformerAST` a parsed file yields, given its
docstring, sources constant and `transform` body. -/
def parseTransformer (doc : Option Chars) (sources : List Chars)
    (body : List PyStmt) : TransformerAST :=
  { moduleDocstring := doc, sources := sources,
    setupCode := (parseBody body).1, steps := (parseBody body).2,
    returnVar := getReturnVar body }

/-! ## The notebook-to-script resynchronizer

`codegen/sync.py`.  `_extract_cells` matches
`@app.cell\s*\n def __\(([^)]*)\):\s*\n((?:    .+\n?)+)` with `finditer`;
since `.` does not match newlines, the body group is a maximal run of
lines that carry a four-space indent plus at least one character, and the
`\s*` runs spanning line breaks amount to skipping whitespace-only lines.
The scanner below walks the notebook line by line with exactly that
reading. -/

/-- A cell recovered from the notebook text: the raw dependency list from
`def __(...)` (stripped) and the dedented, right-stripped body. -/
structure NbCell where
  deps : Chars
  body : Chars
deriving DecidableEq, Repr

/-- Whether the line contains `@app.cell` followed only by whitespace (the
`finditer` scan accepts the marker anywhere in the line; anything after it
must be consumed by `\s*\n`). -/
def appCellAfter : Chars → Bool
  | [] => false
  | c :: cs =>
    if "@app.cell".data.isPrefixOf (c :: cs) && ((c :: cs).drop 9).all isLineWs then true
    else appCellAfter cs

/-- A line consisting of whitespace only (consumable by a `\s*` run that
spans line breaks). -/
def isBlankLine (l : Chars) : Bool := l.all isLineWs

/-- Match `def __\(([^)]*)\):` at the start of the line with only
whitespace after the colon, returning the captured dependency text. -/
def matchDefLine (l : Chars) : Option Chars :=
  if "def __(".data.isPrefixOf l then
    let r := l.drop 7
    let deps := r.takeWhile (fun c => c ≠ ')')
    match r.drop deps.length with
    | ')' :: ':' :: rest => if rest.all isLineWs then some deps else none
    | _ => none
  else none

/-- A body line of the cell pattern: `    .+`, i.e. a four-space indent
plus at least one further character. -/
def isBodyLine (l : Chars) : Bool :=
  (' ' :: ' ' :: ' ' :: ' ' :: []).isPrefixOf l && 5 ≤ l.length

/-- Remove the four-space indent of a body line (`sync.py` lines 22-27). -/
def dedent4 (l : Chars) : Chars :=
  if (' ' :: ' ' :: ' ' :: ' ' :: []).isPrefixOf l then l.drop 4 else l

/-- Finish a cell: strip the dependency text, dedent the body lines, join
and right-strip (`sync.py` lines 19-31). -/
def mkNbCell (deps : Chars) (acc : List Chars) : NbCell :=
  { deps := stripC deps, body := rstripC (joinLines (acc.map dedent4)) }

/-- States of the cell scan: searching for an `@app.cell` marker, after
one (skipping the whitespace the `\s*` runs absorb), or accumulating body
lines. -/
inductive ScanState where
  | seek : ScanState
  | sawApp : ScanState
  | inBody (deps : Chars) (acc : List Chars) : ScanState

/-- The `finditer` scan of `_extract_cells`, one line at a time.  In
`inBody` with an empty accumulator, whitespace-only lines are still part
of the `\s*` run following the signature; once a body line has been seen,
the body group extends greedily over consecutive body lines and the cell
is emitted at the first line that breaks the run (which is reconsidered
as the potential start of the next match, as the resumed scan does). -/
def extractGo : ScanState → List Chars → List NbCell
  | st, [] =>
    match st with
    | .inBody deps acc => if acc.isEmpty then [] else [mkNbCell deps acc]
    | _ => []
  | st, l :: ls =>
    match st with
    | .seek =>
      if appCellAfter l then extractGo .sawApp ls else extractGo .seek ls
    | .sawApp =>
      if appCellAfter l then extractGo .sawApp ls
      else if isBlankLine l then extractGo .sawApp ls
      else
        match matchDefLine l with
        | some deps => extractGo (.inBody deps []) ls
        | none => extractGo .seek ls
    | .inBody deps acc =>
      if acc.isEmpty then
        if isBlankLine l then extractGo (.inBody deps []) ls
        else if isBodyLine l then extractGo (.inBody deps [l]) ls
        else if appCellAfter l then extractGo .sawApp ls
        else extractGo .seek ls
      else
        if isBodyLine l then extractGo (.inBody deps (acc ++ [l])) ls
        else
          mkNbCell deps acc ::
            (if appCellAfter l then extractGo .sawApp ls else extractGo .seek ls)

/-- `_extract_cells(notebook_source)`. -/
def extractCells (src : Chars) : List NbCell := extractGo .seek (splitLines src)

/-- Match `^# Step \d+: (.+)$` at the start of a body (`_is_step_cell`),
returning the step name. -/
def isStepCellB (body : Chars) : Option Chars :=
  match splitLines body with
  | [] => none
  | l :: _ =>
    if "# Step ".data.isPrefixOf l then
      let r := l.drop 7
      let ds := r.takeWhile Char.isDigit
      if ds.isEmpty then none
      else
        match r.drop ds.length with
        | ':' :: ' ' :: rest => if rest.isEmpty then none else some rest
        | _ => none
    else none

/-- Skip test `^# Step \d+:` of `_extract_step_code`. -/
def skipHeader (l : Chars) : Bool :=
  if "# Step ".data.isPrefixOf l then
    let r := l.drop 7
    let ds := r.takeWhile Char.isDigit
    if ds.isEmpty then false
    else
      match r.drop ds.length with
      | ':' :: _ => true
      | _ => false
  else false

/-- Skip test for bare display lines: `^df_\d+$` on the stripped line. -/
def skipDisplay (l : Chars) : Bool :=
  let t := stripC l
  if "df_".data.isPrefixOf t then
    let ds := (t.drop 3).takeWhile Char.isDigit
    !ds.isEmpty && t.length == 3 + ds.length
  else false

/-- Skip test for return statements: `^return\s` on the stripped line. -/
def skipReturn (l : Chars) : Bool :=
  let t := stripC l
  if "return".data.isPrefixOf t then
    match t.drop 6 with
    | c :: _ => isPyWs c
    | [] => false
  else false

/-- `_reverse_variable_rename(code, cell_index)`:
`re.sub(rf'\bdf_{cell_index}\b', 'df', code)`. -/
def reverseVariableRename (idx : Nat) (code : Chars) : Chars :=
  subWordC ('d' :: 'f' :: '_' :: natDec idx) dfW code

/-- `_extract_step_code(cell, cell_index)`: drop header, display and
return lines, join, strip, and reverse the rename for this cell index. -/
def extractStepCode (body : Chars) (idx : Nat) : Chars :=
  let ls := (splitLines body).filter
    (fun l => !(skipHeader l || skipDisplay l || skipReturn l))
  reverseVariableRename idx (stripC (joinLines ls))

/-- The step-collection loop of `sync_notebook` (lines 89-97): walk the
cells with their index, remember the index of the first step cell, and
give each step cell the index `i - step_cell_start + 1`. -/
def collectStepsGo : Nat → Option Nat → List NbCell → List (Chars × Chars)
  | _, _, [] => []
  | i, firstIdx, c :: cs =>
    match isStepCellB c.body with
    | some nm =>
      let start := firstIdx.getD i
      (nm, extractStepCode c.body (i - start + 1)) :: collectStepsGo (i + 1) (some start) cs
    | none => collectStepsGo (i + 1) firstIdx cs

/-- The `(step_name, step_code)` pairs `sync_notebook` extracts. -/
def collectSteps (cells : List NbCell) : List (Chars × Chars) :=
  collectStepsGo 0 none cells

/-! ## Locating the transform function and the setup block

`sync_notebook` lines 102-130.  The signature pattern
`^(def transform\([^)]*\)[^:]*:)\s*\n` is scanned at line starts; the
negated classes may cross newlines (`re.DOTALL` is irrelevant to them),
and the greedy `\s*\n` consumes the whitespace run after the colon up to
and including its last newline. -/

/-- Consume `\([^)]*\)[^:]*:\s*\n` after a matched `def transform(`
prefix, returning the rest of the signature group and the remainder of
the text after the match. -/
def parseSigTail (s1 : Chars) : Option (Chars × Chars) :=
  let a := s1.takeWhile (fun c => c ≠ ')')
  match s1.drop a.length with
  | ')' :: s2 =>
    let b := s2.takeWhile (fun c => c ≠ ':')
    match s2.drop b.length with
    | ':' :: s3 =>
      let w := s3.takeWhile isPyWs
      if w.any (fun c => c == '\n') then
        let keep := (w.reverse.takeWhile (fun c => c ≠ '\n')).reverse
        some (a ++ ')' :: b ++ [':'], keep ++ s3.drop w.length)
      else none
    | _ => none
  | _ => none

/-- Try the signature pattern at the current position, returning the
captured signature and the text after the match. -/
def tryTransformAt (s : Chars) : Option (Chars × Chars) :=
  if "def transform(".data.isPrefixOf s then
    match parseSigTail (s.drop 14) with
    | some (tail, rest) => some ("def transform(".data ++ tail, rest)
    | none => none
  else none

/-- Scan line starts for the first signature match, returning everything
before the match (`pre_transform`), the signature group, and the text
after the match (`post_sig`). -/
def findTransformGo : Bool → Chars → Chars → Option (Chars × Chars × Chars)
  | _, _, [] => none
  | atStart, accRev, c :: cs =>
    if atStart then
      match tryTransformAt (c :: cs) with
      | some (sig, rest) => some (accRev.reverse, sig, rest)
      | none => findTransformGo (c == '\n') (c :: accRev) cs
    else findTransformGo (c == '\n') (c :: accRev) cs

/-- `re.search(r'^(def transform\([^)]*\)[^:]*:)\s*\n', src, re.MULTILINE)`
split into pre-text, signature and post-signature text. -/
def findTransform (src : Chars) : Option (Chars × Chars × Chars) :=
  findTransformGo true [] src

/-- The triple quote. -/
def q3 : Chars := ['"', '"', '"']

/-- Find the first closing triple quote (`.*?` is lazy), returning the
text before it and the text after it. -/
def findTripleQuote : Chars → Option (Chars × Chars)
  | [] => none
  | c :: cs =>
    if q3.isPrefixOf (c :: cs) then some ([], cs.drop 2)
    else
      match findTripleQuote cs with
      | some (mid, after) => some (c :: mid, after)
      | none => none

/-- `re.match(r'(\s+""".*?""")\s*\n', post_sig, re.DOTALL)`: the leading
whitespace must be nonempty, the lazy body ends at the first closing
triple quote, and a newline must occur in the whitespace after it.  The
returned string is the docstring `sync_notebook` keeps:
`ds_match.group(1) + "\n"`. -/
def matchDocstring (s : Chars) : Option Chars :=
  let ws1 := s.takeWhile isPyWs
  if ws1.isEmpty then none
  else
    let s1 := s.drop ws1.length
    if q3.isPrefixOf s1 then
      match findTripleQuote (s1.drop 3) with
      | some (mid, after) =>
        let w := after.takeWhile isPyWs
        if w.any (fun c => c == '\n') then some (ws1 ++ q3 ++ mid ++ q3 ++ ['\n'])
        else none
      | none => none
    else none

/-- Consume the optional docstring group `(?:\s+""".*?"""\s*\n)?` of the
setup pattern, returning the remainder (unchanged when the group does not
match; the sources never place a `step(` inside the region a failed
docstring attempt would have covered, so the deterministic
commit-on-success reading agrees with the backtracking engine). -/
def dropDocstringPart (s : Chars) : Chars :=
  let ws1 := s.takeWhile isPyWs
  if ws1.isEmpty then s
  else
    let s1 := s.drop ws1.length
    if q3.isPrefixOf s1 then
      match findTripleQuote (s1.drop 3) with
      | some (_, after) =>
        let w := after.takeWhile isPyWs
        if w.any (fun c => c == '\n') then
          ((w.reverse.takeWhile (fun c => c ≠ '\n')).reverse) ++ after.drop w.length
        else s
      | none => s
    else s

/-- The lookahead `(?=\s+step\()`: at least one whitespace character
followed by `step(`. -/
def lookaheadStep (t : Chars) : Bool :=
  let w := t.takeWhile isPyWs
  !w.isEmpty && "step(".data.isPrefixOf (t.drop w.length)

/-- The lazy group `(.*?)(?=\s+step\()`: the shortest prefix whose end
position satisfies the lookahead. -/
def splitAtLookahead : Chars → Option Chars
  | [] => none
  | c :: cs =>
    if lookaheadStep (c :: cs) then some []
    else
      match splitAtLookahead cs with
      | some g => some (c :: g)
      | none => none

/-- Try the whole setup pattern at the current position, returning the
captured setup group. -/
def trySetupAt (s : Chars) : Option Chars :=
  if "def transform(".data.isPrefixOf s then
    match parseSigTail (s.drop 14) with
    | some (_, rest) => splitAtLookahead (dropDocstringPart rest)
    | none => none
  else none

/-- `re.search` of the setup pattern: first position where it matches. -/
def findSetupGo : Chars → Option Chars
  | [] => none
  | c :: cs =>
    match trySetupAt (c :: cs) with
    | some g => some g
    | none => findSetupGo cs

/-- The setup code `sync_notebook` extracts (lines 122-130): the matched
group right-stripped plus a newline, or empty when the pattern fails. -/
def extractSetupCode (src : Chars) : Chars :=
  match findSetupGo src with
  | some g => rstripC g ++ ['\n']
  | none => []

/-! ## Reassembly, backup and filesystem effects -/

/-- The new transform body lines (`sync_notebook` lines 132-144): the
docstring when present, the setup code when present, then for each step a
`step("name")` marker line and the indented step code, and finally the
fixed `return df` line. -/
def rebuildBody (docstring setup : Chars) (steps : List (Chars × Chars)) : List Chars :=
  (if docstring.isEmpty then [] else [docstring]) ++
    (if setup.isEmpty then [] else [setup]) ++
    (steps.flatMap (fun p =>
      ('\n' :: "    step(\"".data ++ p.1 ++ "\")".data) ::
        (splitLines p.2).map (fun l =>
          if (stripC l).isEmpty then [] else ' ' :: ' ' :: ' ' :: ' ' :: l))) ++
    ["\n    return df\n".data]

/-- A filesystem mutation performed by `sync_notebook`: the `shutil.copy2`
of the original to the backup path, or a `write_text`. -/
inductive FsEvent where
  | copyTo (path content : Chars) : FsEvent
  | write (path content : Chars) : FsEvent
deriving DecidableEq, Repr

/-- `Path.with_suffix(".py.bak")`: replace the final extension of the last
path component (none when the name has no dot, or only a leading one). -/
def withSuffixPyBak (p : Chars) : Chars :=
  let nameRev := p.reverse.takeWhile (fun c => c != '/')
  let dir := p.take (p.length - nameRev.length)
  let nm := nameRev.reverse
  let extRev := nm.reverse.takeWhile (fun c => c != '.')
  let base :=
    if extRev.length == nm.length then nm
    else if nm.length - extRev.length - 1 == 0 then nm
    else nm.take (nm.length - extRev.length - 1)
  dir ++ base ++ ".py.bak".data

/-- `sync_notebook(notebook_path, transformer_path)` as a pure function of
the two file contents: the result (the new transformer source, or the
message of the `ValueError` raised) together with the filesystem
mutations, in order.  The three raises all happen before the backup copy,
so a failing run performs no mutation; a successful run copies the
original content to the backup path and then overwrites the transformer. -/
def syncRun (tfPath nbSrc tfSrc : Chars) : Except Chars Chars × List FsEvent :=
  let cells := extractCells nbSrc
  if cells.isEmpty then (.error "No cells found in notebook.".data, [])
  else
    let steps := collectSteps cells
    if steps.isEmpty then (.error "No step cells found in notebook.".data, [])
    else
      match findTransform tfSrc with
      | none => (.error "Could not find transform() function in transformer.".data, [])
      | some (pre, sig, postSig) =>
        let docstring := (matchDocstring postSig).getD []
        let setup := extractSetupCode tfSrc
        let newSrc := pre ++ sig ++ '\n' :: joinLines (rebuildBody docstring setup steps)
        (.ok newSrc, [.copyTo (withSuffixPyBak tfPath) tfSrc, .write tfPath newSrc])

/-! ## Structural facts about the step-cell loop -/

theorem genStepsAux_length :
    ∀ (st : List PStep) (e : List Chars) (p : Option Chars) (i : Nat),
      (genStepsAux e p i st).length = st.length := by
  intro st
  induction st with
  | nil => intro e p i; rfl
  | cons s rest ih =>
    intro e p i
    simp only [genStepsAux, List.length_cons, ih]

theorem genStepsAux_get_outputVar :
    ∀ (st : List PStep) (e : List Chars) (p : Option Chars) (i k : Nat)
      (hk : k < (genStepsAux e p i st).length),
      ((genStepsAux e p i st).get ⟨k, hk⟩).outputVar = stageName (i + k + 1) := by
  intro st
  induction st with
  | nil => intro e p i k hk; simp [genStepsAux] at hk
  | cons s rest ih =>
    intro e p i k hk
    cases k with
    | zero => rfl
    | succ k =>
      have := ih (e ++ [stageName (i + 1)]) (some (stageName (i + 1))) (i + 1) k
        (by
          simp only [genStepsAux, List.length_cons] at hk
          omega)
      simp only [genStepsAux, List.get_cons_succ]
      rw [this]
      congr 1
      omega

theorem genStepsAux_get_stepNum :
    ∀ (st : List PStep) (e : List Chars) (p : Option Chars) (i k : Nat)
      (hk : k < (genStepsAux e p i st).length),
      ((genStepsAux e p i st).get ⟨k, hk⟩).stepNum = i + k + 1 := by
  intro st
  induction st with
  | nil => intro e p i k hk; simp [genStepsAux] at hk
  | cons s rest ih =>
    intro e p i k hk
    cases k with
    | zero => rfl
    | succ k =>
      have := ih (e ++ [stageName (i + 1)]) (some (stageName (i + 1))) (i + 1) k
        (by
          simp only [genStepsAux, List.length_cons] at hk
          omega)
      simp only [genStepsAux, List.get_cons_succ]
      rw [this]
      omega

theorem genStepsAux_get_name :
    ∀ (st : List PStep) (e : List Chars) (p : Option Chars) (i k : Nat)
      (hk : k < (genStepsAux e p i st).length) (hk2 : k < st.length),
      ((genStepsAux e p i st).get ⟨k, hk⟩).name = (st.get ⟨k, hk2⟩).name := by
  intro st
  induction st with
  | nil => intro e p i k hk; simp [genStepsAux] at hk
  | cons s rest ih =>
    intro e p i k hk hk2
    cases k with
    | zero => rfl
    | succ k =>
      simp only [genStepsAux, List.get_cons_succ]
      exact ih _ _ _ k _ (by simpa using hk2)

theorem genStepsAux_head_deps :
    ∀ (st : List PStep) (e : List Chars) (q : Chars) (i : Nat)
      (h0 : 0 < (genStepsAux e (some q) i st).length),
      q ∈ ((genStepsAux e (some q) i st).get ⟨0, h0⟩).deps := by
  intro st
  cases st with
  | nil => intro e q i h0; simp [genStepsAux] at h0
  | cons s rest =>
    intro e q i h0
    exact mem_sortLe.mpr
      (List.mem_dedup.mpr (List.mem_append_left _ (List.mem_singleton.mpr rfl)))

theorem genStepsAux_head_inputVar :
    ∀ (st : List PStep) (e : List Chars) (p : Option Chars) (i : Nat)
      (h0 : 0 < (genStepsAux e p i st).length),
      ((genStepsAux e p i st).get ⟨0, h0⟩).inputVar = p.getD (stageName (i + 1)) := by
  intro st
  cases st with
  | nil => intro e p i h0; simp [genStepsAux] at h0
  | cons s rest => intro e p i h0; rfl

theorem genStepsAux_chain :
    ∀ (st : List PStep) (e : List Chars) (p : Option Chars) (i k : Nat)
      (hk : k + 1 < (genStepsAux e p i st).length),
      stageName (i + k + 1) ∈ ((genStepsAux e p i st).get ⟨k + 1, hk⟩).deps := by
  intro st
  induction st with
  | nil => intro e p i k hk; simp [genStepsAux] at hk
  | cons s rest ih =>
    intro e p i k hk
    simp only [genStepsAux, List.get_cons_succ]
    cases k with
    | zero =>
      exact genStepsAux_head_deps rest _ _ _ _
    | succ k =>
      have := ih (e ++ [stageName (i + 1)]) (some (stageName (i + 1))) (i + 1) k
        (by
          simp only [genStepsAux, List.length_cons] at hk
          omega)
      have harg : i + 1 + k + 1 = i + (k + 1) + 1 := by omega
      rw [harg] at this
      exact this

theorem genStepsAux_inputVar_succ :
    ∀ (st : List PStep) (e : List Chars) (p : Option Chars) (i k : Nat)
      (hk : k + 1 < (genStepsAux e p i st).length),
      ((genStepsAux e p i st).get ⟨k + 1, hk⟩).inputVar = stageName (i + k + 1) := by
  intro st
  induction st with
  | nil => intro e p i k hk; simp [genStepsAux] at hk
  | cons s rest ih =>
    intro e p i k hk
    simp only [genStepsAux, List.get_cons_succ]
    cases k with
    | zero =>
      rw [genStepsAux_head_inputVar rest _ _ _ _]
      rfl
    | succ k =>
      have := ih (e ++ [stageName (i + 1)]) (some (stageName (i + 1))) (i + 1) k
        (by
          simp only [genStepsAux, List.length_cons] at hk
          omega)
      have harg : i + 1 + k + 1 = i + (k + 1) + 1 := by omega
      rw [harg] at this
      exact this

/-! ## Concrete pipeline scripts used in the claim proofs -/

/-- A two-step transformer: `step("A") df = filter_a(df)`,
`step("B") df = filter_b(df)`. -/
def twoStepScript : TransformerAST :=
  { moduleDocstring := none, sources := [], setupCode := [],
    steps := [⟨"A".data, "df = filter_a(df)".data⟩, ⟨"B".data, "df = filter_b(df)".data⟩],
    returnVar := "df".data }

/-- A one-step transformer whose step reads and rebinds `df`. -/
def oneStepScript : TransformerAST :=
  { moduleDocstring := none, sources := [], setupCode := [],
    steps := [⟨"A".data, "df = filter_a(df)".data⟩],
    returnVar := "df".data }

/-! ## C4: the chain invariant of the generated cells -/

/-- C4.  For every `PipelineScript` with `N` steps, compilation produces
`N` step cells, in step order (cell `k` carries step number `k+1` and step
`k`'s name); the output of cell `k` is the stage name `df_{k+1}`; every
cell after the first lists the previous cell's sole output among its
declared inputs; and all declared outputs are pairwise distinct. -/
theorem C4_chain_invariant (ast : TransformerAST) :
    (stepCells ast).length = ast.steps.length ∧
    (∀ (k : Nat) (hk : k < (stepCells ast).length) (hk2 : k < ast.steps.length),
      ((stepCells ast).get ⟨k, hk⟩).stepNum = k + 1 ∧
      ((stepCells ast).get ⟨k, hk⟩).name = (ast.steps.get ⟨k, hk2⟩).name ∧
      ((stepCells ast).get ⟨k, hk⟩).outputVar = stageName (k + 1)) ∧
    (∀ (k : Nat) (hk : k < (stepCells ast).length)
      (hk1 : k + 1 < (stepCells ast).length),
      ((stepCells ast).get ⟨k, hk⟩).outputVar ∈ ((stepCells ast).get ⟨k + 1, hk1⟩).deps) ∧
    (∀ (j k : Nat) (hj : j < (stepCells ast).length) (hk : k < (stepCells ast).length),
      j ≠ k →
      ((stepCells ast).get ⟨j, hj⟩).outputVar ≠ ((stepCells ast).get ⟨k, hk⟩).outputVar) := by
  unfold stepCells
  refine ⟨genStepsAux_length _ _ _ _, ?_, ?_, ?_⟩
  · intro k hk hk2
    refine ⟨?_, genStepsAux_get_name _ _ _ _ _ _ _, ?_⟩
    · rw [genStepsAux_get_stepNum]
      omega
    · rw [genStepsAux_get_outputVar]
      congr 1
      omega
  · intro k hk hk1
    have h := genStepsAux_chain ast.steps (exportedAfterSetup ast) none 0 k hk1
    rw [genStepsAux_get_outputVar]
    simpa using h
  · intro j k hj hk hjk h
    rw [genStepsAux_get_outputVar, genStepsAux_get_outputVar] at h
    have := stageName_inj h
    omega

/-- C4, instantiated on the two-step script. -/
theorem C4_chain_invariant_witness :
    (stepCells twoStepScript).length = twoStepScript.steps.length ∧
    ((stepCells twoStepScript).get ⟨0, by decide⟩).outputVar ∈
      ((stepCells twoStepScript).get ⟨1, by decide⟩).deps ∧
    ((stepCells twoStepScript).get ⟨0, by decide⟩).outputVar ≠
      ((stepCells twoStepScript).get ⟨1, by decide⟩).outputVar :=
  ⟨(C4_chain_invariant twoStepScript).1,
    (C4_chain_invariant twoStepScript).2.2.1 0 (by decide) (by decide),
    (C4_chain_invariant twoStepScript).2.2.2 0 1 (by decide) (by decide) (by decide)⟩

/-! ## C5: the input name used to rewrite each step -/

/-- C5 counterexample.  On a one-step script whose step reads `df` on the
right-hand side, the input name used to rewrite the first step is `df_1` —
the first step's own fresh output name (`input_var = prev_df_var if
prev_df_var else current_df_var` with `prev_df_var` still `None`) — not a
name bound before the cell runs: the generated cell reads its own output,
`df_1 = filter_a(df_1)`. -/
theorem C5_first_input_is_own_output :
    (stepCells oneStepScript).map
        (fun c => (c.inputVar, c.outputVar, c.codeLines)) =
      [(stageName 1, stageName 1, ["df_1 = filter_a(df_1)".data])] ∧
    (stepCells oneStepScript).map StepCell.inputVar =
      (stepCells oneStepScript).map StepCell.outputVar := by
  exact ⟨by decide, by decide⟩

/-- C5 as amended.  The input name used to rewrite step `k+1` is the
previous cell's sole output name; for the first step it is the first
step's own fresh output name `df_1` (there is no separate load-stage
name). -/
theorem C5_input_name_amended (ast : TransformerAST) :
    (∀ h0 : 0 < (stepCells ast).length,
      ((stepCells ast).get ⟨0, h0⟩).inputVar = ((stepCells ast).get ⟨0, h0⟩).outputVar ∧
      ((stepCells ast).get ⟨0, h0⟩).inputVar = stageName 1) ∧
    (∀ (k : Nat) (hk1 : k + 1 < (stepCells ast).length) (hk : k < (stepCells ast).length),
      ((stepCells ast).get ⟨k + 1, hk1⟩).inputVar =
        ((stepCells ast).get ⟨k, hk⟩).outputVar) := by
  constructor
  · intro h0
    unfold stepCells at *
    rw [genStepsAux_head_inputVar, genStepsAux_get_outputVar]
    exact ⟨rfl, rfl⟩
  · intro k hk1 hk
    unfold stepCells at *
    rw [genStepsAux_inputVar_succ, genStepsAux_get_outputVar]

/-- C5 amended, instantiated on the two-step script. -/
theorem C5_input_name_amended_witness :
    ((stepCells twoStepScript).get ⟨0, by decide⟩).inputVar = stageName 1 ∧
    ((stepCells twoStepScript).get ⟨1, by decide⟩).inputVar =
      ((stepCells twoStepScript).get ⟨0, by decide⟩).outputVar :=
  ⟨((C5_input_name_amended twoStepScript).1 (by decide)).2,
    (C5_input_name_amended twoStepScript).2 0 (by decide) (by decide)⟩

/-! ## C3: scripts without step markers -/

theorem parseBodyGo_no_marker_steps :
    ∀ (body : List PyStmt), (∀ s ∈ body, isStepStmt s = false) →
      (parseBodyGo none body).2 = [] := by
  intro body
  induction body with
  | nil => intro _; rfl
  | cons s rest ih =>
    intro h
    have hrest : ∀ t ∈ rest, isStepStmt t = false :=
      fun t ht => h t (List.mem_cons_of_mem s ht)
    cases s with
    | exprConstStr code => exact ih hrest
    | exprConstOther code =>
      simp only [parseBodyGo]
      exact ih hrest
    | ret v => exact ih hrest
    | stepMarker nm =>
      have := h (.stepMarker nm) (List.mem_cons_self _ _)
      simp [isStepStmt] at this
    | other code =>
      simp only [parseBodyGo]
      exact ih hrest

/-- The example body of a `transform` function with no step markers: one
plain statement and the trailing return. -/
def noMarkerBody : List PyStmt :=
  [.other "df = clean(sources)".data, .ret "df".data]

/-- C3 counterexample.  Parsing a `transform` body with zero step-marker
calls through the codegen parser yields a `TransformerAST` with zero
steps, not one implicit step — the whole body lands in `setup_code` — and
compiling it yields zero step cells, not one.  (The one-implicit-step
fallback exists only in the parallel `cli/parser.py`, which the CLI's
generate/sync flow does not use.) -/
theorem C3_no_marker_counterexample :
    (parseBody noMarkerBody).2 = [] ∧
    (parseBody noMarkerBody).2.length ≠ 1 ∧
    (parseBody noMarkerBody).1 = "df = clean(sources)".data ∧
    stepCells (parseTransformer none ["A".data] noMarkerBody) = [] ∧
    (notebookCells (parseTransformer none ["A".data] noMarkerBody)).length = 3 := by
  refine ⟨by decide, by decide, by decide, by decide, by decide⟩

/-- C3 as amended.  For every `transform` body with zero step-marker
calls, the codegen parser produces an empty step list (the statements all
become setup code), and compilation therefore produces no step cells. -/
theorem C3_no_marker_amended (body : List PyStmt)
    (h : ∀ s ∈ body, isStepStmt s = false) :
    (parseBody body).2 = [] ∧
    ∀ (doc : Option Chars) (srcs : List Chars),
      stepCells (parseTransformer doc srcs body) = [] := by
  have hsteps : (parseBody body).2 = [] := parseBodyGo_no_marker_steps body h
  refine ⟨hsteps, ?_⟩
  intro doc srcs
  unfold stepCells parseTransformer
  simp only [hsteps]
  rfl

/-- C3 amended, instantiated on the example body. -/
theorem C3_no_marker_amended_witness :
    (parseBody noMarkerBody).2 = [] ∧
    stepCells (parseTransformer none ["A".data] noMarkerBody) = [] :=
  ⟨(C3_no_marker_amended noMarkerBody (by decide)).1,
    (C3_no_marker_amended noMarkerBody (by decide)).2 none ["A".data]⟩

/-! ## C9: no warning on ambiguous renames -/

/-- A one-step script whose working variable appears inside a nested
scope (a helper function body), a construct a scope-aware renamer could
not prove safe. -/
def nestedScopeScript : TransformerAST :=
  { moduleDocstring := none, sources := [], setupCode := [],
    steps := [⟨"A".data,
      "def helper(x):\n    return df\ndf = helper(df)".data⟩],
    returnVar := "df".data }

/-- C9 counterexample.  Compiling a step whose `df` occurrences sit inside
a nested scope completes silently: the textual substitution is applied
even inside the nested function body, exactly one cell is produced, and
the warning trace is empty — there is no `RenameAmbiguity` (or any other)
warning anywhere in `generate_notebook`. -/
theorem C9_silent_nested_scope :
    (stepCells nestedScopeScript).map StepCell.codeLines =
      [["def helper(x):".data,
        "    return df_1".data,
        "df_1 = helper(df_1)".data]] ∧
    generateWarnings nestedScopeScript = [] := by
  exact ⟨by decide, rfl⟩

/-- C9 as amended.  Compilation always proceeds with best-effort textual
substitution — one cell per step, unconditionally — and never emits any
warning: `generate_notebook` has no `RenameAmbiguity` mechanism. -/
theorem C9_no_warning_amended (ast : TransformerAST) :
    generateWarnings ast = [] ∧
    (stepCells ast).length = ast.steps.length :=
  ⟨rfl, genStepsAux_length _ _ _ _⟩

/-! ## C6: chained assignments inside one step -/

/-- A chained-assignment line `df = <rhs>`. -/
def assignLine (r : Chars) : Chars := 'd' :: 'f' :: ' ' :: '=' :: ' ' :: r

theorem matchAssign_assignLine (r : Chars) :
    matchAssign (assignLine r) = some ([], [' '], ' ' :: r) := rfl

/-- Substitution steps over a leading space. -/
theorem subDf_cons_space (repl r : Chars) :
    subDf repl (' ' :: r) = ' ' :: subDf repl r := rfl

/-- The statement walk of spec item 4.2 step 4, transcribed from the
claim: with a running current input, each assignment's right-hand side is
rewritten to the current input and its target to the single output name,
after which the current input becomes the output name. -/
def chainRewriteSpec (outV : Chars) : Chars → List Chars → List Chars
  | _, [] => []
  | cur, r :: rest =>
    (outV ++ ' ' :: '=' :: ' ' :: subDf cur r) :: chainRewriteSpec outV outV rest

/-- Every character of a stage name is `d`, `f`, `_` or a digit. -/
theorem stageName_chars {c : Char} {i : Nat} (h : c ∈ stageName i) :
    c = 'd' ∨ c = 'f' ∨ c = '_' ∨ ∃ d, d < 10 ∧ c = digitCh d := by
  simp only [stageName, List.mem_cons] at h
  rcases h with h | h | h | h
  · exact Or.inl h
  · exact Or.inr (Or.inl h)
  · exact Or.inr (Or.inr (Or.inl h))
  · refine Or.inr (Or.inr (Or.inr ?_))
    unfold natDec at h
    rw [natDecGo_eq (i + 1) i [] (by omega)] at h
    simp only [List.append_nil, List.mem_map] at h
    obtain ⟨d, hd, hdc⟩ := h
    exact ⟨d, natDigits_lt i d hd, hdc.symm⟩

/-- Parentheses do not occur in stage names. -/
theorem paren_not_mem_stageName (i : Nat) :
    '(' ∉ stageName i ∧ ')' ∉ stageName i := by
  constructor
  · intro h
    rcases stageName_chars h with h | h | h | ⟨d, hd, hdc⟩
    · exact absurd h (by decide)
    · exact absurd h (by decide)
    · exact absurd h (by decide)
    · revert hdc
      revert hd
      revert d
      decide
  · intro h
    rcases stageName_chars h with h | h | h | ⟨d, hd, hdc⟩
    · exact absurd h (by decide)
    · exact absurd h (by decide)
    · exact absurd h (by decide)
    · revert hdc
      revert hd
      revert d
      decide

/-- The paren balance of a rewritten assignment line equals that of its
raw right-hand side, when neither the output name nor the current input
contains a parenthesis. -/
theorem parenBal_rewritten (outV cur r : Chars)
    (ho1 : '(' ∉ outV) (ho2 : ')' ∉ outV) (hc1 : '(' ∉ cur) (hc2 : ')' ∉ cur) :
    parenBal (outV ++ ' ' :: '=' :: ' ' :: subDf cur r) =
      (countC '(' r : Int) - (countC ')' r : Int) := by
  have hsub1 : countC '(' (subDf cur r) = countC '(' r :=
    countC_subWordC '(' dfW cur r (by decide) hc1
  have hsub2 : countC ')' (subDf cur r) = countC ')' r :=
    countC_subWordC ')' dfW cur r (by decide) hc2
  simp only [parenBal, countC_append, countC_cons,
    countC_eq_zero_of_not_mem ho1, countC_eq_zero_of_not_mem ho2, hsub1, hsub2]
  simp

/-- The multi-assignment walk on a block of balanced chained assignments
is exactly the walk the spec describes. -/
theorem multiWalkGo_chain (outV : Chars) (ho1 : '(' ∉ outV) (ho2 : ')' ∉ outV) :
    ∀ (rs : List Chars) (cur : Chars), '(' ∉ cur → ')' ∉ cur →
      (∀ r ∈ rs, countC '(' r = countC ')' r) →
      multiWalkGo outV cur none (rs.map assignLine) = chainRewriteSpec outV cur rs := by
  intro rs
  induction rs with
  | nil => intro cur _ _ _; rfl
  | cons r rest ih =>
    intro cur hc1 hc2 hbal
    have hl1 : ([] : Chars) ++ outV ++ [' '] ++ '=' :: subDf cur (' ' :: r)
        = outV ++ ' ' :: '=' :: ' ' :: subDf cur r := by
      rw [subDf_cons_space]
      simp
    rw [List.map_cons, multiWalkGo, matchAssign_assignLine]
    simp only [hl1]
    have hbal0 : parenBal (outV ++ ' ' :: '=' :: ' ' :: subDf cur r) = 0 := by
      rw [parenBal_rewritten outV cur r ho1 ho2 hc1 hc2,
        hbal r (List.mem_cons_self _ _)]
      omega
    rw [hbal0, chainRewriteSpec]
    have hnot : ¬ (0 : Int) > 0 := by omega
    rw [if_neg hnot]
    rw [ih outV ho1 ho2 (fun x hx => hbal x (List.mem_cons_of_mem _ hx))]

/-- C6.  For a step whose code lines are a block of two or more chained
`df = <rhs>` assignments with balanced parentheses, the assignment count
seen by the compiler is the number of assignments, and the rewrite is the
walk the spec describes: statements in order, a running current input
initialized to the input name, each right-hand side rewritten to the
current input and each target to the step's single output name, the
current input becoming the output name after each assignment; compilation
always produces exactly one cell per step (with the single output of C4). -/
theorem C6_multi_assignment (code : Chars) (rs : List Chars) (inV outV : Chars)
    (hsplit : splitLines code = rs.map assignLine)
    (h2 : 2 ≤ rs.length)
    (hbal : ∀ r ∈ rs, countC '(' r = countC ')' r)
    (hin1 : '(' ∉ inV) (hin2 : ')' ∉ inV)
    (ho1 : '(' ∉ outV) (ho2 : ')' ∉ outV) :
    countAssign code = rs.length ∧
    rewriteStep inV outV code = joinLines (chainRewriteSpec outV inV rs) ∧
    ∀ ast : TransformerAST, (stepCells ast).length = ast.steps.length := by
  have hfilter : (rs.map assignLine).filter (fun l => (matchAssign l).isSome)
      = rs.map assignLine := by
    rw [List.filter_eq_self]
    intro l hl
    obtain ⟨r, _, hr⟩ := List.mem_map.mp hl
    rw [← hr, matchAssign_assignLine]
    rfl
  have hcount : countAssign code = rs.length := by
    rw [countAssign, hsplit, hfilter, List.length_map]
  refine ⟨hcount, ?_, fun ast => genStepsAux_length _ _ _ _⟩
  rw [rewriteStep]
  have h0 : (countAssign code == 0) = false := by
    rw [hcount]
    simp only [beq_eq_false_iff_ne, ne_eq]
    omega
  have h1 : (countAssign code == 1) = false := by
    rw [hcount]
    simp only [beq_eq_false_iff_ne, ne_eq]
    omega
  simp only [h0, h1, Bool.false_eq_true, if_false]
  rw [hsplit, multiWalkGo_chain outV ho1 ho2 rs inV hin1 hin2 hbal]

/-- C6, instantiated on the two-assignment step of the spec's example. -/
theorem C6_multi_assignment_witness :
    countAssign "df = filter_a(df)\ndf = filter_b(df)".data = 2 ∧
    rewriteStep "df_1".data "df_2".data "df = filter_a(df)\ndf = filter_b(df)".data
      = "df_2 = filter_a(df_1)\ndf_2 = filter_b(df_2)".data := by
  have h := C6_multi_assignment "df = filter_a(df)\ndf = filter_b(df)".data
    ["filter_a(df)".data, "filter_b(df)".data] "df_1".data "df_2".data
    (by decide) (by decide) (by decide) (by decide) (by decide) (by decide) (by decide)
  refine ⟨h.1, ?_⟩
  rw [h.2.1]
  decide

/-! ## C7: continuation lines of multi-line statements -/

/-- A two-step script whose second step opens a square bracket across a
line break: `df = b[` / `    df]` / `df = c(df)`. -/
def bracketScript : TransformerAST :=
  { moduleDocstring := none, sources := [], setupCode := [],
    steps := [⟨"A".data, "df = f(df)".data⟩,
      ⟨"B".data, "df = b[\n    df]\ndf = c(df)".data⟩],
    returnVar := "df".data }

/-- C7 counterexample.  The continuation tracker counts only round
parentheses (`line.count('(') - line.count(')')`), so a continuation line
inside an unbalanced square bracket is treated as a new statement
boundary: it is substituted with the updated current input `df_2` instead
of the name `df_1` that fed the line opening the assignment (which the
claim, covering brackets of any kind, requires). -/
theorem C7_bracket_counterexample :
    (stepCells bracketScript).map StepCell.codeLines =
      [["df_1 = f(df_1)".data],
        ["df_2 = b[".data, "    df_2]".data, "df_2 = c(df_2)".data]] ∧
    subDf (stageName 1) "    df]".data = "    df_1]".data ∧
    "    df_2]".data ≠ "    df_1]".data := by
  refine ⟨by decide, by decide, by decide⟩

/-- A walk over a single trailing assignment line yields one rewritten
line whatever its paren balance (with no following line, an opened
bracket changes nothing). -/
theorem multiWalkGo_single_assign (outV cur r : Chars) :
    multiWalkGo outV cur none [assignLine r] =
      [outV ++ ' ' :: '=' :: ' ' :: subDf cur r] := by
  rw [multiWalkGo, matchAssign_assignLine]
  have hl1 : ([] : Chars) ++ outV ++ [' '] ++ '=' :: subDf cur (' ' :: r)
      = outV ++ ' ' :: '=' :: ' ' :: subDf cur r := by
    rw [subDf_cons_space]
    simp
  simp only [hl1]
  split_ifs with h
  · rfl
  · rfl

/-- C7 as amended.  Continuation detection applies to round parentheses
only: for a step whose first assignment opens one parenthesis and whose
next line closes it, the continuation line is substituted with the input
name in force when the assignment was opened (not with the updated
current input), and the statement is carried over the line break as one
logical unit; square and curly brackets receive no such treatment (see
the counterexample). -/
theorem C7_paren_continuation_amended (code ro cont r2 inV outV : Chars)
    (hsplit : splitLines code = [assignLine ro, cont, assignLine r2])
    (hro : countC '(' ro = countC ')' ro + 1)
    (hcont : countC ')' cont = countC '(' cont + 1)
    (hin1 : '(' ∉ inV) (hin2 : ')' ∉ inV)
    (ho1 : '(' ∉ outV) (ho2 : ')' ∉ outV) :
    rewriteStep inV outV code = joinLines
      [outV ++ ' ' :: '=' :: ' ' :: subDf inV ro,
        subDf inV cont,
        outV ++ ' ' :: '=' :: ' ' :: subDf outV r2] := by
  have hisSome : ∀ r : Chars, (matchAssign (assignLine r)).isSome = true := by
    intro r
    rw [matchAssign_assignLine]
    rfl
  have hcount : 2 ≤ countAssign code := by
    rw [countAssign, hsplit]
    simp only [List.filter_cons, hisSome]
    by_cases hb : (matchAssign cont).isSome = true
    · simp [hb]
    · simp [hb]
  rw [rewriteStep]
  have h0 : (countAssign code == 0) = false := by
    simp only [beq_eq_false_iff_ne, ne_eq]
    omega
  have h1 : (countAssign code == 1) = false := by
    simp only [beq_eq_false_iff_ne, ne_eq]
    omega
  simp only [h0, h1, Bool.false_eq_true, if_false]
  rw [hsplit]
  rw [multiWalkGo, matchAssign_assignLine]
  have hl1 : ([] : Chars) ++ outV ++ [' '] ++ '=' :: subDf inV (' ' :: ro)
      = outV ++ ' ' :: '=' :: ' ' :: subDf inV ro := by
    rw [subDf_cons_space]
    simp
  simp only [hl1]
  have hbal1 : parenBal (outV ++ ' ' :: '=' :: ' ' :: subDf inV ro) = 1 := by
    rw [parenBal_rewritten outV inV ro ho1 ho2 hin1 hin2, hro]
    push_cast
    omega
  rw [hbal1, if_pos (by omega : (1 : Int) > 0)]
  rw [multiWalkGo]
  have hbal2 : parenBal (subDf inV cont) = -1 := by
    have hs1 : countC '(' (subDf inV cont) = countC '(' cont :=
      countC_subWordC '(' dfW inV cont (by decide) hin1
    have hs2 : countC ')' (subDf inV cont) = countC ')' cont :=
      countC_subWordC ')' dfW inV cont (by decide) hin2
    rw [parenBal, hs1, hs2, hcont]
    push_cast
    omega
  rw [hbal2]
  have hz : (1 : Int) + -1 = 0 := by omega
  rw [hz, if_neg (by omega : ¬ (0 : Int) > 0)]
  rw [multiWalkGo_single_assign]

/-- C7 amended, instantiated on the spec's merge-style example shape. -/
theorem C7_paren_continuation_witness :
    rewriteStep "df_1".data "df_2".data "df = b(\n    df)\ndf = c(df)".data
      = "df_2 = b(\n    df_1)\ndf_2 = c(df_2)".data := by
  have h := C7_paren_continuation_amended "df = b(\n    df)\ndf = c(df)".data
    "b(".data "    df)".data "c(df)".data "df_1".data "df_2".data
    (by decide) (by decide) (by decide) (by decide) (by decide) (by decide) (by decide)
  rw [h]
  decide

/-! ## C1 and C2: the reverse rename in `sync` misses input names

In a generated notebook the `k`-th step cell is the `k`-th cell tagged as
a step, so `sync_notebook` assigns it `cell_index = k`, the cell's own
step number.  `_reverse_variable_rename` substitutes only `df_<k>` — the
cell's output name — and leaves `df_<k-1>`, the declared input that
`generate_notebook` wrote into every step after the first. -/

/-- C2 evidence.  Reversing the rename of cell 2 on its own body rewrites
only the output occurrences `df_2` back to `df`; the declared-input
occurrence `df_1` survives, so a stage-specific name remains in the
reconstructed step code, contrary to the claim. -/
theorem C2_reverse_rename_misses_inputs :
    reverseVariableRename 2 "df_2 = filter_b(df_1)".data = "df = filter_b(df_1)".data ∧
    containsWordC "df_1".data
      (reverseVariableRename 2 "df_2 = filter_b(df_1)".data) = true := by
  exact ⟨by decide, by decide⟩

/-- C1 evidence.  On the two-step script, extracting the step code back
out of the very cells `generate_notebook` produces (header, display and
return lines stripped, rename reversed with the cell's index) recovers
the first step verbatim but leaves `df_1` inside the second step's code,
so the resynchronized script is not the original: its second step reads
the undefined name `df_1` instead of `df`. -/
theorem C1_sync_not_roundtrip :
    (stepCells twoStepScript).map
        (fun c => extractStepCode (joinLines (stepCellBody c)) c.stepNum) =
      ["df = filter_a(df)".data, "df = filter_b(df_1)".data] ∧
    twoStepScript.steps.map PStep.code =
      ["df = filter_a(df)".data, "df = filter_b(df)".data] ∧
    ("df = filter_b(df_1)".data : Chars) ≠ "df = filter_b(df)".data := by
  refine ⟨by decide, by decide, by decide⟩

/-! ## C10: the working variable is the literal `df` -/

/-- The `prevW` flag the word scan carries after traversing `a`, starting
from `prevW`. -/
def wordFlagAfter (a : Chars) (prevW : Bool) : Bool :=
  match a.getLast? with
  | some c => isWordChar c
  | none => prevW

theorem wordFlagAfter_cons (c : Char) (a : Chars) (prevW : Bool) :
    wordFlagAfter (c :: a) prevW = wordFlagAfter a (isWordChar c) := by
  cases a with
  | nil => rfl
  | cons d as => rfl

/-- A word occurrence found when scanning a suffix from the junction flag
is an occurrence of the full string. -/
theorem containsWordGo_of_suffix (w0 : Char) (wr : Chars) :
    ∀ (a b : Chars) (prevW : Bool),
      containsWordGo w0 wr (wordFlagAfter a prevW) b = true →
      containsWordGo w0 wr prevW (a ++ b) = true := by
  intro a
  induction a with
  | nil => intro b prevW h; exact h
  | cons c as ih =>
    intro b prevW h
    rw [List.cons_append, containsWordGo]
    by_cases hc : (!prevW && c == w0 && wr.isPrefixOf (as ++ b) &&
        noWordAfter ((as ++ b).drop wr.length)) = true
    · rw [if_pos hc]
    · rw [if_neg hc]
      rw [wordFlagAfter_cons] at h
      exact ih b (isWordChar c) h

/-- Line whitespace is not a word character. -/
theorem isLineWs_not_word {c : Char} (h : isLineWs c = true) :
    isWordChar c = false := by
  simp only [isLineWs, Bool.or_eq_true, beq_iff_eq] at h
  rcases h with h | h
  · rw [h]; decide
  · rw [h]; decide

/-- A line matched by the assignment pattern contains the word `df`,
whatever follows it. -/
theorem matchAssign_contains (l b : Chars) (h : (matchAssign l).isSome = true) :
    containsWordGo 'd' ['f'] false (l ++ b) = true := by
  unfold matchAssign at h
  split at h
  case h_2 => simp at h
  case h_1 r heq =>
    split at h
    case h_2 => simp at h
    case h_1 rest heq2 =>
      have hl : l = l.takeWhile isLineWs ++ 'd' :: 'f' :: r := by
        conv_lhs => rw [← List.takeWhile_append_dropWhile (p := isLineWs) (l := l)]
        rw [heq]
      have hrhead : noWordAfter (r ++ b) = true := by
        cases hrc : r with
        | nil => rw [hrc] at heq2; simp at heq2
        | cons rc rt =>
          by_cases hws : isLineWs rc = true
          · simp only [List.cons_append, noWordAfter, isLineWs_not_word hws]
            rfl
          · have hsame : r.dropWhile isLineWs = r := by
              rw [hrc, List.dropWhile_cons_of_neg (by simpa using hws)]
            rw [hsame, hrc] at heq2
            have hrceq : rc = '=' := ((List.cons.injEq _ _ _ _).mp heq2).1
            simp only [hrc, List.cons_append, noWordAfter, hrceq]
            decide
      rw [hl, List.append_assoc]
      apply containsWordGo_of_suffix
      have hflag : wordFlagAfter (l.takeWhile isLineWs) false = false := by
        unfold wordFlagAfter
        cases hlast : (l.takeWhile isLineWs).getLast? with
        | none => rfl
        | some c =>
          exact isLineWs_not_word
            (List.mem_takeWhile_imp (List.mem_of_getLast?_eq_some hlast))
      rw [hflag]
      rw [List.cons_append, List.cons_append, containsWordGo]
      rw [if_pos]
      simp only [Bool.and_eq_true]
      refine ⟨⟨⟨by decide, by decide⟩, ?_⟩, ?_⟩
      · show (['f'].isPrefixOf ('f' :: (r ++ b))) = true
        simp [List.isPrefixOf]
      · show noWordAfter (('f' :: (r ++ b)).drop 1) = true
        simpa using hrhead

/-- Every line produced by the split sits in the string after either the
start or a newline. -/
theorem splitLinesGo_decomp :
    ∀ (s cur : Chars) (l : Chars), l ∈ splitLinesGo cur s →
      ∃ a b, cur.reverse ++ s = a ++ l ++ b ∧ (a = [] ∨ a.getLast? = some '\n') := by
  intro s
  induction s with
  | nil =>
    intro cur l hl
    simp only [splitLinesGo, List.mem_singleton] at hl
    exact ⟨[], [], by simp [hl], Or.inl rfl⟩
  | cons c cs ih =>
    intro cur l hl
    rw [splitLinesGo] at hl
    by_cases hc : (c == '\n') = true
    · rw [if_pos hc] at hl
      have hceq : c = '\n' := beq_iff_eq.mp hc
      rcases List.mem_cons.mp hl with hl | hl
      · exact ⟨[], c :: cs, by simp [hl], Or.inl rfl⟩
      · obtain ⟨a, b, hab, hjunc⟩ := ih [] l hl
        simp only [List.reverse_nil, List.nil_append] at hab
        refine ⟨cur.reverse ++ c :: a, b, ?_, ?_⟩
        · rw [hab]
          simp
        · right
          rcases hjunc with rfl | hja
          · rw [hceq]
            simp
          · rw [List.getLast?_append_of_ne_nil]
            · rw [List.getLast?_cons, hja]
              cases a with
              | nil => simp at hja
              | cons x xs => simp [hja]
            · simp
    · rw [if_neg hc] at hl
      obtain ⟨a, b, hab, hjunc⟩ := ih (c :: cur) l hl
      refine ⟨a, b, ?_, hjunc⟩
      rw [← hab]
      simp

/-- A string without the word `df` has no assignment lines. -/
theorem countAssign_zero_of_no_df (code : Chars)
    (h : containsWordC dfW code = false) : countAssign code = 0 := by
  rw [countAssign, List.length_eq_zero, List.filter_eq_nil_iff]
  intro l hl
  intro hsome
  have hl2 : l ∈ splitLinesGo [] code := by
    rw [splitLines] at hl
    by_cases he : code.isEmpty = true
    · rw [if_pos he] at hl
      simp at hl
    · rw [if_neg he] at hl
      by_cases hlast : (code.getLast? == some '\n') = true
      · rw [if_pos hlast] at hl
        exact List.dropLast_subset _ hl
      · rw [if_neg hlast] at hl
        exact hl
  obtain ⟨a, b, hab, hjunc⟩ := splitLinesGo_decomp code [] l hl2
  simp only [List.reverse_nil, List.nil_append] at hab
  have hcontains : containsWordGo 'd' ['f'] false code = true := by
    rw [hab, List.append_assoc]
    apply containsWordGo_of_suffix
    have hflag : wordFlagAfter a false = false := by
      unfold wordFlagAfter
      rcases hjunc with rfl | hja
      · rfl
      · rw [hja]
        decide
    rw [hflag]
    exact matchAssign_contains l b hsome
  rw [show containsWordC dfW code = containsWordGo 'd' ['f'] false code from rfl] at h
  rw [hcontains] at h
  simp at h

/-- The per-step rewrite leaves a step without the word `df` unchanged. -/
theorem rewriteStep_no_df (inV outV code : Chars)
    (h : containsWordC dfW code = false) : rewriteStep inV outV code = code := by
  rw [rewriteStep]
  simp only [countAssign_zero_of_no_df code h]
  rw [if_pos (by decide : ((0 : Nat) == 0) = true)]
  exact subWordC_of_not_contains dfW inV code h

/-- Joining after appending a final line. -/
theorem joinLines_concat :
    ∀ (xs : List Chars) (x : Chars), xs ≠ [] →
      joinLines (xs ++ [x]) = joinLines xs ++ '\n' :: x := by
  intro xs
  induction xs with
  | nil => intro x hx; exact absurd rfl hx
  | cons a as ih =>
    intro x _
    cases as with
    | nil => rfl
    | cons b bs =>
      show a ++ '\n' :: joinLines ((b :: bs) ++ [x])
          = (a ++ '\n' :: joinLines (b :: bs)) ++ '\n' :: x
      rw [ih x (by simp)]
      simp

/-- A successful `sync_notebook` reconstruction ends with the fixed
`return df` line, whatever the original script returned. -/
theorem syncRun_ok_suffix (tfPath nbSrc tfSrc out : Chars)
    (h : (syncRun tfPath nbSrc tfSrc).1 = .ok out) :
    "\n    return df\n".data <:+ out := by
  unfold syncRun at h
  by_cases h1 : (extractCells nbSrc).isEmpty
  · rw [if_pos h1] at h
    simp at h
  · rw [if_neg h1] at h
    by_cases h2 : (collectSteps (extractCells nbSrc)).isEmpty
    · rw [if_pos h2] at h
      simp at h
    · rw [if_neg h2] at h
      cases hft : findTransform tfSrc with
      | none =>
        rw [hft] at h
        simp at h
      | some triple =>
        rw [hft] at h
        obtain ⟨pre, sig, postSig⟩ := triple
        simp only [Except.ok.injEq] at h
        rw [← h]
        have hsteps : collectSteps (extractCells nbSrc) ≠ [] := by
          simpa [List.isEmpty_iff] using h2
        obtain ⟨s0, srest, hs⟩ :
            ∃ s0 srest, collectSteps (extractCells nbSrc) = s0 :: srest :=
          List.exists_cons_of_ne_nil hsteps
        set ds := (matchDocstring postSig).getD [] with hds
        set su := extractSetupCode tfSrc with hsu
        have hfront : rebuildBody ds su (collectSteps (extractCells nbSrc))
            = ((if ds.isEmpty then [] else [ds]) ++ (if su.isEmpty then [] else [su])
                ++ ((collectSteps (extractCells nbSrc)).flatMap (fun p =>
                  ('\n' :: "    step(\"".data ++ p.1 ++ "\")".data) ::
                    (splitLines p.2).map (fun l =>
                      if (stripC l).isEmpty then [] else ' ' :: ' ' :: ' ' :: ' ' :: l))))
              ++ ["\n    return df\n".data] := by
          rw [rebuildBody]
        rw [hfront, joinLines_concat]
        · exact ⟨pre ++ sig ++ '\n' ::
            (joinLines ((if ds.isEmpty then [] else [ds]) ++ (if su.isEmpty then [] else [su])
              ++ ((collectSteps (extractCells nbSrc)).flatMap (fun p =>
                ('\n' :: "    step(\"".data ++ p.1 ++ "\")".data) ::
                  (splitLines p.2).map (fun l =>
                    if (stripC l).isEmpty then [] else ' ' :: ' ' :: ' ' :: ' ' :: l))))
              ++ ['\n']), by simp⟩
        · rw [hs]
          simp

/-- C10.  The working-variable name is the literal `df` throughout: step
code in which the word `df` does not occur is compiled unchanged (no
assignment is counted, nothing is rewritten — a script threading any
other variable keeps it unrenamed), reverse renaming rewrites only the
word `df_N` (code without it is untouched), and every successful sync
reconstruction ends with the literal `return df` line regardless of the
original script's return variable. -/
theorem C10_working_variable_literal_df :
    (∀ inV outV code : Chars, containsWordC dfW code = false →
      rewriteStep inV outV code = code) ∧
    (∀ (idx : Nat) (code : Chars),
      containsWordC ('d' :: 'f' :: '_' :: natDec idx) code = false →
      reverseVariableRename idx code = code) ∧
    (∀ tfPath nbSrc tfSrc out : Chars, (syncRun tfPath nbSrc tfSrc).1 = .ok out →
      "\n    return df\n".data <:+ out) :=
  ⟨rewriteStep_no_df,
    fun _ _ h => subWordC_of_not_contains _ _ _ h,
    syncRun_ok_suffix⟩

/-- The generated notebook for a one-step transformer, as `sync` reads
it (imports cell, one step cell, result cell). -/
def nbExample : Chars :=
  "import marimo\n\n@app.cell\ndef __():\n    import sys\n\n@app.cell\ndef __(load_source):\n    # Step 1: Filter\n    df_1 = filter_not_null(df_1, \"x\")\n    df_1\n    return df_1,\n\n@app.cell\ndef __(df_1):\n    # Final Result\n    df_1\n    return\n".data

/-- The matching one-step transformer file. -/
def tfExample : Chars :=
  "from x import y\n\ndef transform(sources):\n    step(\"Filter\")\n    df = filter_not_null(df, \"x\")\n    return df\n".data

/-- What `sync_notebook` writes back for `tfExample` (whitespace aside,
the original script). -/
def syncedExample : Chars :=
  "from x import y\n\ndef transform(sources):\n\n\n\n    step(\"Filter\")\n    df = filter_not_null(df, \"x\")\n\n    return df\n".data

/-- C10, instantiated: a `data`-threading step is emitted unchanged, a
`df`-free string is untouched by the reverse rename, and the concrete
sync reconstruction ends with `return df`. -/
theorem C10_working_variable_literal_df_witness :
    rewriteStep "df_1".data "df_1".data "data = clean(data)".data = "data = clean(data)".data ∧
    reverseVariableRename 2 "result = 3".data = "result = 3".data ∧
    "\n    return df\n".data <:+ syncedExample :=
  ⟨C10_working_variable_literal_df.1 "df_1".data "df_1".data "data = clean(data)".data
      (by decide),
    C10_working_variable_literal_df.2.1 2 "result = 3".data (by decide),
    C10_working_variable_literal_df.2.2 "t.py".data nbExample tfExample syncedExample
      (by rfl)⟩

/-! ## C8: reconstruction in memory, backup before overwrite -/

/-- Predicate-satisfying lists are their own `takeWhile`. -/
theorem takeWhile_all {p : Char → Bool} {l : Chars}
    (h : ∀ c ∈ l, p c = true) : l.takeWhile p = l :=
  List.takeWhile_eq_self_iff.mpr h

/-- `with_suffix(".py.bak")` on a plain `<stem>.py` name yields
`<stem>.py.bak`. -/
theorem withSuffixPyBak_py (stem : Chars) (hne : stem ≠ []) (_hdot : '.' ∉ stem)
    (hslash : '/' ∉ stem) :
    withSuffixPyBak (stem ++ ".py".data) = stem ++ ".py.bak".data := by
  simp only [withSuffixPyBak]
  have h1 : (stem ++ ['.', 'p', 'y']).reverse = 'y' :: 'p' :: '.' :: stem.reverse := by
    rw [List.reverse_append]
    rfl
  rw [h1]
  have hall : ∀ c ∈ ('y' :: 'p' :: '.' :: stem.reverse), (c != '/') = true := by
    intro c hc
    rcases List.mem_cons.mp hc with rfl | hc
    · decide
    rcases List.mem_cons.mp hc with rfl | hc
    · decide
    rcases List.mem_cons.mp hc with rfl | hc
    · decide
    · simp only [bne_iff_ne, ne_eq]
      intro hcs
      exact hslash (hcs ▸ List.mem_reverse.mp hc)
  rw [takeWhile_all hall]
  have h3 : (stem ++ ['.', 'p', 'y']).length - ('y' :: 'p' :: '.' :: stem.reverse).length
      = 0 := by
    simp
  rw [h3, List.take_zero]
  have h4 : ('y' :: 'p' :: '.' :: stem.reverse).reverse = stem ++ ['.', 'p', 'y'] := by
    simp
  rw [h4, h1]
  have h5 : (('y' :: 'p' :: '.' :: stem.reverse).takeWhile (fun c => c != '.'))
      = ['y', 'p'] := rfl
  rw [h5]
  have h6 : ((['y', 'p'] : Chars).length == (stem ++ ['.', 'p', 'y']).length) = false := by
    rw [beq_eq_false_iff_ne]
    simp only [List.length_cons, List.length_append, List.length_nil, ne_eq]
    omega
  rw [h6]
  have h7 : ((stem ++ ['.', 'p', 'y']).length - (['y', 'p'] : Chars).length - 1 == 0)
      = false := by
    rw [beq_eq_false_iff_ne]
    simp only [List.length_cons, List.length_append, List.length_nil, ne_eq]
    have : stem.length ≠ 0 := by
      intro h
      exact hne (List.length_eq_zero.mp h)
    omega
  simp only [h7, Bool.false_eq_true, if_false]
  have h8 : (stem ++ ['.', 'p', 'y']).length - (['y', 'p'] : Chars).length - 1
      = stem.length := by
    simp only [List.length_cons, List.length_append, List.length_nil]
    omega
  rw [h8, List.take_left' rfl]
  simp

/-- C8.  `sync_notebook` raises all three of its errors (no cells, no
step cells, no transform function) before any filesystem mutation, so a
failing run leaves the script and its backup untouched; a successful run
first copies the exact pre-sync content to the backup path and only then
overwrites the script; and the backup of a script named `<stem>.py` is
`<stem>.py.bak`. -/
theorem C8_backup_before_write (tfPath nbSrc tfSrc : Chars) :
    (∀ e : Chars, (syncRun tfPath nbSrc tfSrc).1 = .error e →
      (syncRun tfPath nbSrc tfSrc).2 = []) ∧
    (∀ out : Chars, (syncRun tfPath nbSrc tfSrc).1 = .ok out →
      (syncRun tfPath nbSrc tfSrc).2 =
        [FsEvent.copyTo (withSuffixPyBak tfPath) tfSrc, FsEvent.write tfPath out]) ∧
    (∀ stem : Chars, stem ≠ [] → '.' ∉ stem → '/' ∉ stem →
      withSuffixPyBak (stem ++ ".py".data) = stem ++ ".py.bak".data) := by
  refine ⟨?_, ?_, withSuffixPyBak_py⟩
  · intro e herr
    unfold syncRun at herr ⊢
    by_cases h1 : (extractCells nbSrc).isEmpty
    · rw [if_pos h1]
    · rw [if_neg h1] at herr ⊢
      by_cases h2 : (collectSteps (extractCells nbSrc)).isEmpty
      · rw [if_pos h2]
      · rw [if_neg h2] at herr ⊢
        cases hft : findTransform tfSrc with
        | none => rfl
        | some triple =>
          obtain ⟨pre, sig, postSig⟩ := triple
          rw [hft] at herr
          simp at herr
  · intro out hout
    unfold syncRun at hout ⊢
    by_cases h1 : (extractCells nbSrc).isEmpty
    · rw [if_pos h1] at hout
      simp at hout
    · rw [if_neg h1] at hout ⊢
      by_cases h2 : (collectSteps (extractCells nbSrc)).isEmpty
      · rw [if_pos h2] at hout
        simp at hout
      · rw [if_neg h2] at hout ⊢
        cases hft : findTransform tfSrc with
        | none =>
          rw [hft] at hout
          simp at hout
        | some triple =>
          obtain ⟨pre, sig, postSig⟩ := triple
          rw [hft] at hout
          simp only [Except.ok.injEq] at hout
          rw [← hout]

/-- C8, instantiated on the one-step example: the successful sync backs
up the exact transformer content to `t.py.bak` and then writes the new
source, in that order. -/
theorem C8_backup_before_write_witness :
    (syncRun "t.py".data nbExample tfExample).2 =
      [FsEvent.copyTo "t.py.bak".data tfExample,
        FsEvent.write "t.py".data syncedExample] ∧
    withSuffixPyBak ("t".data ++ ".py".data) = "t".data ++ ".py.bak".data := by
  constructor
  · have h := (C8_backup_before_write "t.py".data nbExample tfExample).2.1
      syncedExample (by rfl)
    rw [h]
    rfl
  · exact (C8_backup_before_write "t.py".data nbExample tfExample).2.2
      "t".data (by decide) (by decide) (by decide)
